import Mathlib

/-!
Verification of the staged GitHub-repository scanner and its quality scorer.

The quality scorer (`QualityScorer` in `src/utils/scoring.js`) is embedded as
pure functions over a `Repo` metadata record and an `AdditionalData` enrichment
record.  JavaScript numbers are modelled as rationals (`ℚ`); `Math.round` is
JavaScript's half-up rounding.  Timestamps are modelled at day granularity as
integers (`moment().diff(t, 'days')` becomes `now - t`), which is exact for all
day-granular inputs considered here.  A README is modelled by its base64-decoded
content string (the decode itself is outside the model's scope).
-/

/-- Repository metadata fields read by the scorer. -/
structure Repo where
  stargazers_count : Nat
  forks_count : Nat
  pushed_at : Int
  open_issues_count : Nat
  has_issues : Bool
  topics : List String
  archived : Bool
deriving DecidableEq

/-- A release, reduced to the `published_at` timestamp (in days) that the
scorer reads.  The release list is newest-first, as returned by the API. -/
structure Release where
  published_at : Int
deriving DecidableEq

instance : Inhabited Release := ⟨⟨0⟩⟩

/-- The `additionalData` object assembled by `enrichRepository`.  A JS field
that is `undefined`/`null` is `none` / `[]` / `false` here, matching the
scorer's parameter defaults. -/
structure AdditionalData where
  readme : Option String
  releases : List Release
  commits : List Int
  hasWiki : Bool
  hasLicense : Bool
  hasContributing : Bool
  hasCI : Bool
deriving DecidableEq

/-- Is `pat` a contiguous sublist of the second argument? -/
def charsInfix (pat : List Char) : List Char → Bool
  | [] => pat.isEmpty
  | c :: rest => pat.isPrefixOf (c :: rest) || charsInfix pat rest

/-- JS `content.includes(pat)`: substring test. -/
def strIncludes (content pat : String) : Bool :=
  charsInfix pat.toList content.toList

/-- JS `Math.round` (half-up rounding) on a rational. -/
def jsRound (q : ℚ) : Int :=
  ⌊q + 1/2⌋

/-- Source `calculatePopularityScore`: 25 points max, stars (20) + forks (5). -/
def calculatePopularityScore (repo : Repo) : ℚ :=
  min ((repo.stargazers_count : ℚ) / 1000 * 10) 20
    + min ((repo.forks_count : ℚ) / 200 * 5) 5

/-- Source `calculateActivityScore`: 20 points max, recent-push step function (15)
plus release-recency bonus (5).  The `commits` parameter is accepted but,
as in the source, never read. -/
def calculateActivityScore (now : Int) (repo : Repo) (_commits : List Int)
    (releases : List Release) : ℚ :=
  (if now - repo.pushed_at ≤ 7 then (15 : ℚ)
   else if now - repo.pushed_at ≤ 30 then 12
   else if now - repo.pushed_at ≤ 90 then 8
   else if now - repo.pushed_at ≤ 180 then 4
   else 0)
  + (match releases with
     | [] => 0
     | r :: _ =>
       if now - r.published_at ≤ 90 then (5 : ℚ)
       else if now - r.published_at ≤ 180 then 3
       else if now - r.published_at ≤ 365 then 1
       else 0)

/-- The `readmeScore` accumulator of `calculateDocumentationScore`: length
tiers (cumulative 5/3/2) plus quality indicators (headers 2, fenced code 2,
badges or images 1); `none` is an absent README. -/
def readmeScoreOf : Option String → ℚ
  | none => 0
  | some content =>
      (if content.length > 500 then (5 : ℚ) else 0)
    + (if content.length > 2000 then (3 : ℚ) else 0)
    + (if content.length > 5000 then (2 : ℚ) else 0)
    + (if strIncludes content "## " || strIncludes content "# " then (2 : ℚ) else 0)
    + (if strIncludes content "```" then (2 : ℚ) else 0)
    + (if strIncludes content "[![" || strIncludes content "![" then (1 : ℚ) else 0)

/-- Source `calculateDocumentationScore`: README score capped at 15, plus 5 for a
wiki.  The `repo` parameter is unused, as in the source. -/
def calculateDocumentationScore (_repo : Repo) (readme : Option String)
    (hasWiki : Bool) : ℚ :=
  min (readmeScoreOf readme) 15 + (if hasWiki then (5 : ℚ) else 0)

/-- Source `calculateCommunityScore`: license (8) + contributing guide (4) + issue
engagement (up to 3). -/
def calculateCommunityScore (repo : Repo) (hasLicense hasContributing : Bool) : ℚ :=
  (if hasLicense then (8 : ℚ) else 0)
  + (if hasContributing then (4 : ℚ) else 0)
  + ((if repo.open_issues_count > 0 && repo.open_issues_count < 100 then (2 : ℚ) else 0)
     + (if repo.has_issues then (1 : ℚ) else 0))

/-- The release gaps (in days) between the most recent up-to-6 releases,
i.e. `min (length - 1) 5` consecutive differences, newest first. -/
def releaseGaps (releases : List Release) : List Int :=
  (List.range (min (releases.length - 1) 5)).map fun i =>
    (releases.getD i default).published_at - (releases.getD (i + 1) default).published_at

/-- The `avgGap` of `calculateMaintenanceScore`: the mean of the release
gaps, in days. -/
def avgReleaseGap (releases : List Release) : ℚ :=
  (((releaseGaps releases).map fun g => (g : ℚ)).sum) / ((releaseGaps releases).length : ℚ)

/-- Source `calculateMaintenanceScore`: one point per release up to 5, plus a
regularity bonus from the average release gap when at least 3 releases
exist; result capped at 10. -/
def calculateMaintenanceScore (_repo : Repo) (releases : List Release) : ℚ :=
  match releases with
  | [] => 0
  | _ =>
    min (min (releases.length : ℚ) 5
      + (if releases.length ≥ 3 then
           (if avgReleaseGap releases ≤ 90 then (3 : ℚ)
            else if avgReleaseGap releases ≤ 180 then 2 else 1)
         else 0)) 10

/-- Source `calculateCodeQualityScore`: topics (up to 3) + CI (4) + not archived (3). -/
def calculateCodeQualityScore (repo : Repo) (hasCI : Bool) : ℚ :=
  (if repo.topics.length > 0 then min (repo.topics.length : ℚ) 3 else 0)
  + (if hasCI then (4 : ℚ) else 0)
  + (if !repo.archived then (3 : ℚ) else 0)

/-- Source `calculateGrade`: boundary-inclusive letter-grade thresholds. -/
def calculateGrade (score : ℚ) : String :=
  if score ≥ 90 then "A+"
  else if score ≥ 80 then "A"
  else if score ≥ 70 then "B"
  else if score ≥ 60 then "C"
  else if score ≥ 50 then "D"
  else "F"

/-- The six sub-scores, as stored (unrounded) in the `breakdown` field. -/
structure Breakdown where
  popularity : ℚ
  activity : ℚ
  documentation : ℚ
  community : ℚ
  maintenance : ℚ
  codeQuality : ℚ
deriving DecidableEq

/-- The value returned by `QualityScorer.calculateScore`. -/
structure QualityScore where
  total : Int
  grade : String
  breakdown : Breakdown
  maxPoints : Nat
deriving DecidableEq

/-- Sum of the six breakdown values. -/
def breakdownSum (b : Breakdown) : ℚ :=
  b.popularity + b.activity + b.documentation + b.community + b.maintenance + b.codeQuality

/-- Source `QualityScorer.calculateScore`: computes the six sub-scores, their exact
sum `totalScore`, grades `totalScore`, and stores `Math.round(totalScore)` as
`total` alongside the unrounded breakdown. -/
def calculateScore (now : Int) (repo : Repo) (d : AdditionalData) : QualityScore :=
  let scores : Breakdown :=
    { popularity := calculatePopularityScore repo
      activity := calculateActivityScore now repo d.commits d.releases
      documentation := calculateDocumentationScore repo d.readme d.hasWiki
      community := calculateCommunityScore repo d.hasLicense d.hasContributing
      maintenance := calculateMaintenanceScore repo d.releases
      codeQuality := calculateCodeQualityScore repo d.hasCI }
  let totalScore : ℚ := scores.popularity + scores.activity + scores.documentation
    + scores.community + scores.maintenance + scores.codeQuality
  { total := jsRound totalScore
    grade := calculateGrade totalScore
    breakdown := scores
    maxPoints := 100 }

/-- The module-level `calculateQualityScore` export delegating to the scorer. -/
def calculateQualityScore (now : Int) (repo : Repo) (d : AdditionalData) : QualityScore :=
  calculateScore now repo d

/-!
The staged scanner (`src/staged-scanner.js`).

`getNextCategory` reduces over the configured category list, comparing
per-category last-scan timestamps with the JavaScript `<` operator.  Stored
timestamps are ISO-8601 strings; an absent entry is defaulted to the number
`0` by `|| 0`.  JavaScript `<` between two same-format ISO strings is the
lexicographic string order (chronological order for such strings); between
the number `0` and an ISO string it coerces the string to `NaN`, so the
comparison is `false` in either direction.  `jsTsLt` embeds exactly this:
timestamps are `Option String` (`none` = never scanned). -/

/-- JavaScript `<` on strings: lexicographic comparison of code units
(codepoints, for the ASCII timestamp strings at hand). -/
def charsLt : List Char → List Char → Bool
  | [], [] => false
  | [], _ :: _ => true
  | _ :: _, [] => false
  | a :: as, b :: bs =>
    if a.toNat < b.toNat then true
    else if b.toNat < a.toNat then false
    else charsLt as bs

/-- JavaScript `(ts[cat] || 0) < (ts[oldest] || 0)` on stored timestamps. -/
def jsTsLt : Option String → Option String → Bool
  | some a, some b => charsLt a.toList b.toList
  | _, _ => false

/-- Source `StagedScanner.getNextCategory`: `reduce` over all configured categories
starting from the first, replacing the accumulator only when the candidate's
timestamp is strictly `<` (in the JS sense) the accumulator's. -/
def getNextCategory (cats : List String) (ts : String → Option String) : String :=
  cats.foldl (fun oldest cat => if jsTsLt (ts cat) (ts oldest) then cat else oldest)
    (cats.headD "")

/-- Modelled from the spec: the comparison the selection policy is specified
to use — a category with no recorded timestamp is timestamp `0`, infinitely
old, hence strictly earlier than any scanned category; scanned categories
compare chronologically. -/
def specTsLt : Option String → Option String → Bool
  | none, none => false
  | none, some _ => true
  | some _, none => false
  | some a, some b => charsLt a.toList b.toList

/-- Modelled from the spec: oldest-first selection with ties broken by
configuration order (first strict minimum wins). -/
def specNextCategory (cats : List String) (ts : String → Option String) : String :=
  cats.foldl (fun oldest cat => if specTsLt (ts cat) (ts oldest) then cat else oldest)
    (cats.headD "")

/-- A raw search-result repository, reduced to the stable identifier the
scan loop reads. -/
structure RawRepo where
  full_name : String
deriving DecidableEq

/-- The record produced by `enrichRepository`: the repository together with
its assigned category (the further enrichment fields play no role in the
scan-loop or merge logic). -/
structure EnrichedRepo where
  full_name : String
  category : String
deriving DecidableEq

/-- The scanner limits (`maxReposPerSearch`, `maxReposPerCategory`,
`timeoutMinutes`). -/
structure ScanConfig where
  maxReposPerSearch : Nat
  maxReposPerCategory : Nat
  timeoutMinutes : ℚ
deriving DecidableEq

/-- Did the search for this term succeed? -/
def searchOk (e : Except String (List RawRepo)) : Bool :=
  match e with
  | Except.ok _ => true
  | Except.error _ => false

/-- The candidates one term's search yields: the environment's result list
truncated to the requested page size (`perPage = maxReposPerSearch`), or
nothing when the search fails. -/
def candidatesFor (cfg : ScanConfig) (env : String → Except String (List RawRepo))
    (t : String) : List RawRepo :=
  match env t with
  | Except.ok l => l.take cfg.maxReposPerSearch
  | Except.error _ => []

/-- The inner `for (const repo of repos)` loop of `scanCategory`: stop when
the per-category cap is reached, skip candidates already accumulated
(matching on `full_name`), skip candidates whose enrichment fails
(`enrichRepository` returns `null`), append the rest. -/
def addCandidates (cfg : ScanConfig) (enrich : RawRepo → Option EnrichedRepo) :
    List EnrichedRepo → List RawRepo → List EnrichedRepo
  | acc, [] => acc
  | acc, repo :: rest =>
    if cfg.maxReposPerCategory ≤ acc.length then acc
    else if acc.any fun r => r.full_name == repo.full_name then
      addCandidates cfg enrich acc rest
    else
      match enrich repo with
      | some er => addCandidates cfg enrich (acc ++ [er]) rest
      | none => addCandidates cfg enrich acc rest

/-- The term loop of `scanCategory`.  `elapsed i` is the wall-clock time (in
minutes) observed at the top of the `i`-th term iteration.  Returns the
accumulated records together with the list of terms for which a search was
actually issued.  A term whose search fails contributes nothing but does not
abort the loop; the loop stops early on timeout or when the category cap is
reached. -/
def scanGo (cfg : ScanConfig) (env : String → Except String (List RawRepo))
    (enrich : RawRepo → Option EnrichedRepo) (elapsed : Nat → ℚ) :
    List EnrichedRepo → Nat → List String → List EnrichedRepo × List String
  | acc, _, [] => (acc, [])
  | acc, idx, t :: rest =>
    if cfg.timeoutMinutes < elapsed idx then (acc, [])
    else
      match env t with
      | Except.error _ =>
        let p := scanGo cfg env enrich elapsed acc (idx + 1) rest
        (p.1, t :: p.2)
      | Except.ok _ =>
        let acc2 := addCandidates cfg enrich acc (candidatesFor cfg env t)
        if cfg.maxReposPerCategory ≤ acc2.length then (acc2, [t])
        else
          let p := scanGo cfg env enrich elapsed acc2 (idx + 1) rest
          (p.1, t :: p.2)

/-- Source `StagedScanner.scanCategory`: run the term loop from an empty accumulator
and return the accumulated records. -/
def scanCategory (cfg : ScanConfig) (env : String → Except String (List RawRepo))
    (enrich : RawRepo → Option EnrichedRepo) (elapsed : Nat → ℚ)
    (searchTerms : List String) : List EnrichedRepo :=
  (scanGo cfg env enrich elapsed [] 0 searchTerms).1

/-- The searches issued by a `scanCategory` run, in order. -/
def issuedSearches (cfg : ScanConfig) (env : String → Except String (List RawRepo))
    (enrich : RawRepo → Option EnrichedRepo) (elapsed : Nat → ℚ)
    (searchTerms : List String) : List String :=
  (scanGo cfg env enrich elapsed [] 0 searchTerms).2

/-!
The persisted repository map (`repositories.json`) is a JS object keyed by
`full_name`; it is embedded as an association list in insertion order (JS
objects preserve string-key insertion order, and a key is unique in an
object). -/

/-- The repository map: key (the stable identifier) paired with the record. -/
abbrev RepoMap := List (String × EnrichedRepo)

/-- JS object property assignment `m[k] = v`: replace the (unique) existing
entry in place, or append a new entry. -/
def jsSet : RepoMap → String → EnrichedRepo → RepoMap
  | [], k, v => [(k, v)]
  | p :: rest, k, v => if p.1 = k then (k, v) :: rest else p :: jsSet rest k v

/-- JS property read `m[k]`. -/
def lookupMap (m : RepoMap) (k : String) : Option EnrichedRepo :=
  (m.find? fun p => p.1 == k).map Prod.snd

/-- The merge step of `StagedScanner.run`: delete every record whose
`category` equals the scanned category, then insert each fresh record at key
`full_name`. -/
def mergeCategory (old : RepoMap) (cat : String) (fresh : List EnrichedRepo) : RepoMap :=
  let cleaned := old.filter fun p => !(p.2.category == cat)
  fresh.foldl (fun m r => jsSet m r.full_name r) cleaned

/-- Number of records in the map assigned to category `c`. -/
def countCategory (m : RepoMap) (c : String) : Nat :=
  (m.filter fun p => p.2.category == c).length

/-!
Concrete inputs used by counterexamples, scenario checks and witnesses.
Times are in days relative to `now = 0`; negative values lie in the past.
-/

/-- JS `additionalData = {}`: every enrichment input missing. -/
def emptyAdditional : AdditionalData :=
  ⟨none, [], [], false, false, false, false⟩

/-- A repository with 50 stars (fractional popularity 0.5), archived, with
no other contributions. -/
def repoFractional : Repo :=
  ⟨50, 0, -200, 0, false, [], true⟩

/-- README with a header, a fenced code block and badge markup, padded with
2001 total characters. -/
def readmeGradeCE : String :=
  "## t\n```c```\n[![b]\n" ++ String.mk (List.replicate 1982 'a')

/-- Repository whose breakdown sums to 89.5: stars 1350 (13.5) + forks 200
(5), pushed 2 days ago, 5 open issues, issues on, 3 topics, not archived. -/
def repoGradeCE : Repo :=
  ⟨1350, 200, -2, 5, true, ["a", "b", "c"], false⟩

/-- Enrichment for `repoGradeCE`: the 2001-char README, wiki, license,
contributing guide, CI, and five releases 30 days apart (latest 10 days
ago). -/
def dataGradeCE : AdditionalData :=
  ⟨some readmeGradeCE, [⟨-10⟩, ⟨-40⟩, ⟨-70⟩, ⟨-100⟩, ⟨-130⟩], [], true, true, true, true⟩

/-- Persisted timestamps where `web-automation` was scanned on 2024-05-01
and `mobile-automation` never. -/
def tsMixed : String → Option String :=
  fun c => if c = "web-automation" then some "2024-05-01T00:00:00.000Z" else none

/-- README of length 6000 with a header, a fenced code block and badge
markup (spec scenario example 2). -/
def readmeScenario2 : String :=
  "## t\n```c```\n[![b]\n" ++ String.mk (List.replicate 5981 'a')

/-- The repository of spec scenario example 2: stars 1000, forks 200,
pushed 2 days ago, 5 open issues, issues on, 3 topics, not archived. -/
def repoScenario2 : Repo :=
  ⟨1000, 200, -2, 5, true, ["a", "b", "c"], false⟩

/-- Enrichment of scenario example 2: the 6000-char README, one release 10
days ago, wiki, license, contributing guide, CI. -/
def dataScenario2 : AdditionalData :=
  ⟨some readmeScenario2, [⟨-10⟩], [], true, true, true, true⟩

/-- Limits of spec scenario example 1: 3 per search, 5 per category,
12-minute timeout. -/
def cfgScenario : ScanConfig := ⟨3, 5, 12⟩

/-- Search environment of scenario example 1: two terms with three unique
candidates each. -/
def envScenario : String → Except String (List RawRepo) :=
  fun t =>
    if t = "t1" then Except.ok [⟨"r1"⟩, ⟨"r2"⟩, ⟨"r3"⟩]
    else if t = "t2" then Except.ok [⟨"r4"⟩, ⟨"r5"⟩, ⟨"r6"⟩]
    else Except.error "no results"

/-- Enrichment that always succeeds and assigns category `cat`. -/
def enrichScenario : RawRepo → Option EnrichedRepo :=
  fun r => some (EnrichedRepo.mk r.full_name "cat")

/-- A repository map holding two stale `c` records and one `d` record. -/
def oldMapC4 : RepoMap :=
  [("x", ⟨"x", "c"⟩), ("y", ⟨"y", "d"⟩), ("z", ⟨"z", "c"⟩)]

/-- Two fresh category-`c` records, one overwriting the `d` record's key. -/
def freshC4 : List EnrichedRepo := [⟨"y", "c"⟩, ⟨"w", "c"⟩]

/-- A repository map holding records of category `d` at keys `x` and `y`. -/
def oldMapC10 : RepoMap := [("x", ⟨"x", "d"⟩), ("y", ⟨"y", "d"⟩)]

/-- A fresh category-`c` record whose identifier collides with the `d`
record at key `x`. -/
def freshC10 : List EnrichedRepo := [⟨"x", "c"⟩]

/-- Modelled from the spec: the grade as the claim states it, a function of
the stored (rounded) `total` field with the same boundary-inclusive
thresholds. -/
def specGradeOfTotal (total : Int) : String :=
  if total ≥ 90 then "A+"
  else if total ≥ 80 then "A"
  else if total ≥ 70 then "B"
  else if total ≥ 60 then "C"
  else if total ≥ 50 then "D"
  else "F"

section
attribute [local semireducible] Rat.add Rat.mul Rat.inv Rat.sub Rat.ofScientific

lemma popularity_nonneg (repo : Repo) : 0 ≤ calculatePopularityScore repo := by
  unfold calculatePopularityScore
  have h1 : (0 : ℚ) ≤ (repo.stargazers_count : ℚ) / 1000 * 10 := by positivity
  have h2 : (0 : ℚ) ≤ (repo.forks_count : ℚ) / 200 * 5 := by positivity
  exact add_nonneg (le_min h1 (by norm_num)) (le_min h2 (by norm_num))

lemma popularity_le (repo : Repo) : calculatePopularityScore repo ≤ 25 := by
  unfold calculatePopularityScore
  have := add_le_add (min_le_right ((repo.stargazers_count : ℚ) / 1000 * 10) 20)
    (min_le_right ((repo.forks_count : ℚ) / 200 * 5) 5)
  linarith

lemma activity_bounds (now : Int) (repo : Repo) (commits : List Int)
    (releases : List Release) :
    0 ≤ calculateActivityScore now repo commits releases
      ∧ calculateActivityScore now repo commits releases ≤ 20 := by
  rcases releases with - | ⟨r, rest⟩ <;>
    simp only [calculateActivityScore] <;> constructor <;> split_ifs <;> norm_num

lemma readmeScoreOf_nonneg (readme : Option String) : 0 ≤ readmeScoreOf readme := by
  rcases readme with - | content
  · simp [readmeScoreOf]
  · simp only [readmeScoreOf]
    split_ifs <;> norm_num

lemma documentation_bounds (repo : Repo) (readme : Option String) (hasWiki : Bool) :
    0 ≤ calculateDocumentationScore repo readme hasWiki
      ∧ calculateDocumentationScore repo readme hasWiki ≤ 20 := by
  unfold calculateDocumentationScore
  have h1 : (0 : ℚ) ≤ min (readmeScoreOf readme) 15 :=
    le_min (readmeScoreOf_nonneg readme) (by norm_num)
  have h2 : min (readmeScoreOf readme) 15 ≤ 15 := min_le_right _ _
  constructor <;> split_ifs <;> linarith

lemma community_bounds (repo : Repo) (hasLicense hasContributing : Bool) :
    0 ≤ calculateCommunityScore repo hasLicense hasContributing
      ∧ calculateCommunityScore repo hasLicense hasContributing ≤ 15 := by
  unfold calculateCommunityScore
  constructor <;> split_ifs <;> norm_num

lemma maintenance_bounds (repo : Repo) (releases : List Release) :
    0 ≤ calculateMaintenanceScore repo releases
      ∧ calculateMaintenanceScore repo releases ≤ 10 := by
  unfold calculateMaintenanceScore
  rcases releases with - | ⟨r, rest⟩
  · norm_num
  · have hb : (0 : ℚ) ≤ min ((r :: rest).length : ℚ) 5 :=
      le_min (by positivity) (by norm_num)
    have hbonus : (0 : ℚ) ≤
        (if (r :: rest).length ≥ 3 then
           (if avgReleaseGap (r :: rest) ≤ 90 then (3 : ℚ)
            else if avgReleaseGap (r :: rest) ≤ 180 then 2 else 1)
         else 0) := by
      split_ifs <;> norm_num
    exact ⟨le_min (by linarith) (by norm_num), min_le_right _ _⟩

lemma codeQuality_bounds (repo : Repo) (hasCI : Bool) :
    0 ≤ calculateCodeQualityScore repo hasCI
      ∧ calculateCodeQualityScore repo hasCI ≤ 10 := by
  unfold calculateCodeQualityScore
  have h1 : (0 : ℚ) ≤ min (repo.topics.length : ℚ) 3 := le_min (by positivity) (by norm_num)
  have h2 : min (repo.topics.length : ℚ) 3 ≤ 3 := min_le_right _ _
  constructor <;> split_ifs <;> linarith

/-- Claim C1 (corrected).  The `total` field is the half-up rounding
(`Math.round`) of the exact sum of the six breakdown values — so the two
agree only when that sum is an integer — and every breakdown value lies
within its documented bound: popularity in [0,25], activity in [0,20],
documentation in [0,20], community in [0,15], maintenance in [0,10],
codeQuality in [0,10]. -/
theorem total_is_rounded_breakdown_sum_and_bounds (now : Int) (repo : Repo)
    (d : AdditionalData) :
    (calculateQualityScore now repo d).total
        = jsRound (breakdownSum (calculateQualityScore now repo d).breakdown)
      ∧ 0 ≤ (calculateQualityScore now repo d).breakdown.popularity
      ∧ (calculateQualityScore now repo d).breakdown.popularity ≤ 25
      ∧ 0 ≤ (calculateQualityScore now repo d).breakdown.activity
      ∧ (calculateQualityScore now repo d).breakdown.activity ≤ 20
      ∧ 0 ≤ (calculateQualityScore now repo d).breakdown.documentation
      ∧ (calculateQualityScore now repo d).breakdown.documentation ≤ 20
      ∧ 0 ≤ (calculateQualityScore now repo d).breakdown.community
      ∧ (calculateQualityScore now repo d).breakdown.community ≤ 15
      ∧ 0 ≤ (calculateQualityScore now repo d).breakdown.maintenance
      ∧ (calculateQualityScore now repo d).breakdown.maintenance ≤ 10
      ∧ 0 ≤ (calculateQualityScore now repo d).breakdown.codeQuality
      ∧ (calculateQualityScore now repo d).breakdown.codeQuality ≤ 10 :=
  ⟨rfl, popularity_nonneg repo, popularity_le repo,
    (activity_bounds now repo d.commits d.releases).1,
    (activity_bounds now repo d.commits d.releases).2,
    (documentation_bounds repo d.readme d.hasWiki).1,
    (documentation_bounds repo d.readme d.hasWiki).2,
    (community_bounds repo d.hasLicense d.hasContributing).1,
    (community_bounds repo d.hasLicense d.hasContributing).2,
    (maintenance_bounds repo d.releases).1,
    (maintenance_bounds repo d.releases).2,
    (codeQuality_bounds repo d.hasCI).1,
    (codeQuality_bounds repo d.hasCI).2⟩

/-- Claim C1 (counterexample).  For the 50-star archived repository with no
enrichment, the breakdown sums to 1/2 but the stored `total` is
`Math.round(0.5) = 1`, so `total` does not equal the sum of the breakdown
values. -/
theorem total_ne_breakdown_sum_at_repoFractional :
    ¬ (((calculateQualityScore 0 repoFractional emptyAdditional).total : ℚ)
        = breakdownSum (calculateQualityScore 0 repoFractional emptyAdditional).breakdown) := by
  intro h
  have h1 : (calculateQualityScore 0 repoFractional emptyAdditional).total = 1 := by decide
  have h2 : breakdownSum (calculateQualityScore 0 repoFractional emptyAdditional).breakdown
      = 1/2 := by decide
  rw [h1, h2] at h
  norm_num at h
end

section
attribute [local semireducible] Rat.add Rat.mul Rat.inv Rat.sub Rat.ofScientific

lemma readmeGradeCE_len : readmeGradeCE.length = 2001 := by
  have h0 : readmeGradeCE
      = "## t\n```c```\n[![b]\n" ++ String.mk (List.replicate 1982 'a') := rfl
  have h1 : ("## t\n```c```\n[![b]\n" : String).length = 19 := by decide
  rw [h0, String.length_append, h1, String.length_mk, List.length_replicate]

lemma docGradeCE : calculateDocumentationScore repoGradeCE (some readmeGradeCE) true = 18 := by
  have h2 : strIncludes readmeGradeCE "## " = true := by decide
  have h3 : strIncludes readmeGradeCE "```" = true := by decide
  have h4 : strIncludes readmeGradeCE "[![" = true := by decide
  simp only [calculateDocumentationScore, readmeScoreOf, readmeGradeCE_len, h2, h3, h4]
  norm_num

lemma scoreGradeCE : calculateQualityScore 0 repoGradeCE dataGradeCE
    = ⟨90, "A", ⟨37/2, 20, 18, 15, 8, 10⟩, 100⟩ := by
  have hpop : calculatePopularityScore repoGradeCE = 37/2 := by decide
  have hact : calculateActivityScore 0 repoGradeCE dataGradeCE.commits dataGradeCE.releases
      = 20 := by decide
  have hdoc : calculateDocumentationScore repoGradeCE dataGradeCE.readme dataGradeCE.hasWiki
      = 18 := docGradeCE
  have hcom : calculateCommunityScore repoGradeCE dataGradeCE.hasLicense
      dataGradeCE.hasContributing = 15 := by decide
  have hmain : calculateMaintenanceScore repoGradeCE dataGradeCE.releases = 8 := by decide
  have hcq : calculateCodeQualityScore repoGradeCE dataGradeCE.hasCI = 10 := by decide
  simp only [calculateQualityScore, calculateScore, hpop, hact, hdoc, hcom, hmain, hcq]
  norm_num [jsRound, calculateGrade]

/-- Claim C2 (counterexample).  For the repository whose breakdown sums to
89.5, the stored `total` is `Math.round(89.5) = 90` but the grade —
computed from the unrounded sum 89.5 — is "A", not the "A+" the
threshold function of the `total` field would give.  The grade is therefore
not a function of the `total` field as claimed. -/
theorem grade_ne_thresholds_of_total_at_gradeCE :
    (calculateQualityScore 0 repoGradeCE dataGradeCE).grade
      ≠ specGradeOfTotal (calculateQualityScore 0 repoGradeCE dataGradeCE).total := by
  rw [scoreGradeCE]
  decide

/-- Claim C2 (amended).  The `grade` field is the boundary-inclusive threshold
function applied to the *unrounded* sum of the breakdown values (of which
the `total` field is the half-up rounding), not to `total` itself; on
integer sums the two coincide: a sum of exactly 90 grades "A+" and a sum
of exactly 89 grades "A". -/
theorem grade_is_thresholds_of_breakdown_sum (now : Int) (repo : Repo) (d : AdditionalData) :
    (calculateQualityScore now repo d).grade
        = calculateGrade (breakdownSum (calculateQualityScore now repo d).breakdown)
      ∧ calculateGrade 90 = "A+" ∧ calculateGrade 89 = "A" :=
  ⟨rfl, by decide, by decide⟩

lemma readmeScenario2_len : readmeScenario2.length = 6000 := by
  have h0 : readmeScenario2
      = "## t\n```c```\n[![b]\n" ++ String.mk (List.replicate 5981 'a') := rfl
  have h1 : ("## t\n```c```\n[![b]\n" : String).length = 19 := by decide
  rw [h0, String.length_append, h1, String.length_mk, List.length_replicate]

lemma docScenario2 : calculateDocumentationScore repoScenario2 (some readmeScenario2) true
    = 20 := by
  have h2 : strIncludes readmeScenario2 "## " = true := by decide
  have h3 : strIncludes readmeScenario2 "```" = true := by decide
  have h4 : strIncludes readmeScenario2 "[![" = true := by decide
  simp only [calculateDocumentationScore, readmeScoreOf, readmeScenario2_len, h2, h3, h4]
  norm_num

/-- Claim C5.  Spec scenario example 2: stars 1000, forks 200, pushed 2 days
ago, one release 10 days ago, 6000-char README with headers, code and
badges, wiki, license, contributing guide, 5 open issues, issues enabled,
3 topics, CI, not archived — the score is popularity 15, activity 20,
documentation 20, community 15, maintenance 1, codeQuality 10, total 81,
grade "A". -/
theorem qualityScore_scenario2 : calculateQualityScore 0 repoScenario2 dataScenario2
    = ⟨81, "A", ⟨15, 20, 20, 15, 1, 10⟩, 100⟩ := by
  have hpop : calculatePopularityScore repoScenario2 = 15 := by decide
  have hact : calculateActivityScore 0 repoScenario2 dataScenario2.commits
      dataScenario2.releases = 20 := by decide
  have hdoc : calculateDocumentationScore repoScenario2 dataScenario2.readme
      dataScenario2.hasWiki = 20 := docScenario2
  have hcom : calculateCommunityScore repoScenario2 dataScenario2.hasLicense
      dataScenario2.hasContributing = 15 := by decide
  have hmain : calculateMaintenanceScore repoScenario2 dataScenario2.releases = 1 := by decide
  have hcq : calculateCodeQualityScore repoScenario2 dataScenario2.hasCI = 10 := by decide
  simp only [calculateQualityScore, calculateScore, hpop, hact, hdoc, hcom, hmain, hcq]
  norm_num [jsRound, calculateGrade]

/-- Claim C9.  With every enrichment input missing (`additionalData = {}`:
no README, no releases, no license/contributing/wiki/CI information), the
scorer still returns a well-formed QualityScore for any repository: the
documentation and maintenance scores are zero, the activity score carries
no release bonus (≤ 15), the community score carries no license or
contributing bonus (≤ 3), and the `total`/`breakdown` relationship holds
unchanged. -/
theorem score_total_with_missing_enrichment (now : Int) (repo : Repo) :
    (calculateQualityScore now repo emptyAdditional).breakdown.documentation = 0
      ∧ (calculateQualityScore now repo emptyAdditional).breakdown.maintenance = 0
      ∧ (calculateQualityScore now repo emptyAdditional).breakdown.activity ≤ 15
      ∧ (calculateQualityScore now repo emptyAdditional).breakdown.community ≤ 3
      ∧ (calculateQualityScore now repo emptyAdditional).total
          = jsRound (breakdownSum (calculateQualityScore now repo emptyAdditional).breakdown) := by
  refine ⟨?_, ?_, ?_, ?_, rfl⟩
  · show calculateDocumentationScore repo none false = 0
    simp [calculateDocumentationScore, readmeScoreOf]
  · show calculateMaintenanceScore repo [] = 0
    simp [calculateMaintenanceScore]
  · show calculateActivityScore now repo [] [] ≤ 15
    simp only [calculateActivityScore]
    split_ifs <;> norm_num
  · show calculateCommunityScore repo false false ≤ 3
    simp [calculateCommunityScore]
    split_ifs <;> norm_num
end

/-- Claim C3 (code-bug evidence).  With `web-automation` scanned on 2024-05-01
and `mobile-automation` never scanned, `getNextCategory` selects
`web-automation`: the `|| 0` default turns the missing timestamp into the
number 0, and JS `<` between 0 and an ISO string compares `NaN`, so the
never-scanned category never wins.  The selection policy of the spec (and of
the comment above the code) selects the never-scanned `mobile-automation`. -/
theorem never_scanned_category_not_selected :
    getNextCategory ["web-automation", "mobile-automation"] tsMixed = "web-automation"
      ∧ specNextCategory ["web-automation", "mobile-automation"] tsMixed = "mobile-automation"
      ∧ ("web-automation" : String) ≠ "mobile-automation" :=
  ⟨by decide, by decide, by decide⟩

lemma addCandidates_length_le (cfg : ScanConfig) (enrich : RawRepo → Option EnrichedRepo) :
    ∀ (cands : List RawRepo) (acc : List EnrichedRepo),
      acc.length ≤ cfg.maxReposPerCategory →
      (addCandidates cfg enrich acc cands).length ≤ cfg.maxReposPerCategory := by
  intro cands
  induction cands with
  | nil => intro acc h; simpa [addCandidates] using h
  | cons repo rest ih =>
    intro acc h
    simp only [addCandidates]
    split_ifs with h1 h2
    · exact h
    · exact ih acc h
    · cases henr : enrich repo with
      | some er =>
        simp only [henr]
        refine ih (acc ++ [er]) ?_
        have : acc.length < cfg.maxReposPerCategory := Nat.lt_of_not_le h1
        simpa using this
      | none => simpa [henr] using ih acc h

lemma scanGo_length_le (cfg : ScanConfig) (env : String → Except String (List RawRepo))
    (enrich : RawRepo → Option EnrichedRepo) (elapsed : Nat → ℚ) :
    ∀ (terms : List String) (acc : List EnrichedRepo) (idx : Nat),
      acc.length ≤ cfg.maxReposPerCategory →
      (scanGo cfg env enrich elapsed acc idx terms).1.length ≤ cfg.maxReposPerCategory := by
  intro terms
  induction terms with
  | nil => intro acc idx h; simpa [scanGo] using h
  | cons t rest ih =>
    intro acc idx h
    cases henv : env t with
    | error e =>
      simp only [scanGo, henv]
      split_ifs with h1
      · exact h
      · exact ih acc (idx + 1) h
    | ok l =>
      have hadd := addCandidates_length_le cfg enrich (candidatesFor cfg env t) acc h
      simp only [scanGo, henv]
      split_ifs with h1 h2
      · exact h
      · exact hadd
      · exact ih _ (idx + 1) hadd

/-- Claim C6.  The executor returns at most `maxReposPerCategory` records and
considers at most `maxReposPerSearch` candidates per search term; and in
spec scenario example 1 (two terms of three unique candidates each, cap 5)
it returns exactly five records, in order from term 1 then term 2. -/
theorem scanCategory_caps :
    (∀ (cfg : ScanConfig) (env : String → Except String (List RawRepo))
        (enrich : RawRepo → Option EnrichedRepo) (elapsed : Nat → ℚ) (terms : List String),
        (scanCategory cfg env enrich elapsed terms).length ≤ cfg.maxReposPerCategory)
      ∧ (∀ (cfg : ScanConfig) (env : String → Except String (List RawRepo)) (t : String),
          (candidatesFor cfg env t).length ≤ cfg.maxReposPerSearch)
      ∧ scanCategory cfgScenario envScenario enrichScenario (fun _ => 0) ["t1", "t2"]
          = [⟨"r1", "cat"⟩, ⟨"r2", "cat"⟩, ⟨"r3", "cat"⟩, ⟨"r4", "cat"⟩, ⟨"r5", "cat"⟩] := by
  refine ⟨?_, ?_, by decide⟩
  · intro cfg env enrich elapsed terms
    exact scanGo_length_le cfg env enrich elapsed terms [] 0 (Nat.zero_le _)
  · intro cfg env t
    unfold candidatesFor
    cases env t with
    | ok l => exact List.length_take_le cfg.maxReposPerSearch l
    | error e => simp

lemma scanGo_issued_le (cfg : ScanConfig) (env : String → Except String (List RawRepo))
    (enrich : RawRepo → Option EnrichedRepo) (elapsed : Nat → ℚ) :
    ∀ (terms : List String) (acc : List EnrichedRepo) (idx k : Nat),
      cfg.timeoutMinutes < elapsed (idx + k) →
      (scanGo cfg env enrich elapsed acc idx terms).2.length ≤ k := by
  intro terms
  induction terms with
  | nil => intro acc idx k h; simp [scanGo]
  | cons t rest ih =>
    intro acc idx k h
    cases henv : env t with
    | error e =>
      simp only [scanGo, henv]
      split_ifs with h1
      · simp
      · cases k with
        | zero => exact absurd (by simpa using h) h1
        | succ k' =>
          have h' : cfg.timeoutMinutes < elapsed (idx + 1 + k') := by
            have heq : idx + 1 + k' = idx + (k' + 1) := by omega
            rw [heq]; exact h
          simpa using Nat.succ_le_succ (ih acc (idx + 1) k' h')
    | ok l =>
      simp only [scanGo, henv]
      split_ifs with h1 h2
      · simp
      · cases k with
        | zero => exact absurd (by simpa using h) h1
        | succ k' => simp
      · cases k with
        | zero => exact absurd (by simpa using h) h1
        | succ k' =>
          have h' : cfg.timeoutMinutes < elapsed (idx + 1 + k') := by
            have heq : idx + 1 + k' = idx + (k' + 1) := by omega
            rw [heq]; exact h
          simpa using Nat.succ_le_succ (ih _ (idx + 1) k' h')

/-- Claim C7.  If the wall-clock time observed at the top of term iteration
`i` exceeds the per-category timeout, the term loop stops there: at most
`i` searches are ever issued, so no term from index `i` onward is
searched. -/
theorem timeout_stops_term_loop (cfg : ScanConfig)
    (env : String → Except String (List RawRepo)) (enrich : RawRepo → Option EnrichedRepo)
    (elapsed : Nat → ℚ) (terms : List String) (i : Nat)
    (h : cfg.timeoutMinutes < elapsed i) :
    (issuedSearches cfg env enrich elapsed terms).length ≤ i := by
  have := scanGo_issued_le cfg env enrich elapsed terms [] 0 i (by simpa using h)
  simpa [issuedSearches] using this

/-- Claim C7 (witness).  With a 12-minute timeout and a clock advancing 10
minutes per term, at most two of the three terms are searched. -/
theorem timeout_stops_term_loop_witness :
    (issuedSearches cfgScenario envScenario enrichScenario (fun n => 10 * (n : ℚ))
        ["t1", "t2", "t3"]).length ≤ 2 :=
  timeout_stops_term_loop cfgScenario envScenario enrichScenario (fun n => 10 * (n : ℚ))
    ["t1", "t2", "t3"] 2 (by norm_num [cfgScenario])

lemma scanGo_records_idx_irrel (cfg : ScanConfig) (env : String → Except String (List RawRepo))
    (enrich : RawRepo → Option EnrichedRepo) (c : ℚ) :
    ∀ (terms : List String) (acc : List EnrichedRepo) (i j : Nat),
      (scanGo cfg env enrich (fun _ => c) acc i terms).1
        = (scanGo cfg env enrich (fun _ => c) acc j terms).1 := by
  intro terms
  induction terms with
  | nil => intro acc i j; rfl
  | cons t rest ih =>
    intro acc i j
    cases henv : env t with
    | error e =>
      simp only [scanGo, henv]
      split_ifs
      · rfl
      · exact ih acc (i + 1) (j + 1)
    | ok l =>
      simp only [scanGo, henv]
      split_ifs
      · rfl
      · rfl
      · exact ih _ (i + 1) (j + 1)

lemma scanGo_records_of_timeout (cfg : ScanConfig) (env : String → Except String (List RawRepo))
    (enrich : RawRepo → Option EnrichedRepo) (c : ℚ) (hto : cfg.timeoutMinutes < c) :
    ∀ (L : List String) (acc : List EnrichedRepo) (i : Nat),
      (scanGo cfg env enrich (fun _ => c) acc i L).1 = acc := by
  intro L acc i
  cases L with
  | nil => rfl
  | cons t rest => simp [scanGo, hto]

lemma scanGo_filter_errors (cfg : ScanConfig) (env : String → Except String (List RawRepo))
    (enrich : RawRepo → Option EnrichedRepo) (c : ℚ) :
    ∀ (terms : List String) (acc : List EnrichedRepo) (i : Nat),
      (scanGo cfg env enrich (fun _ => c) acc i terms).1
        = (scanGo cfg env enrich (fun _ => c) acc i
            (terms.filter fun t => searchOk (env t))).1 := by
  intro terms
  induction terms with
  | nil => intro acc i; rfl
  | cons t rest ih =>
    intro acc i
    by_cases hto : cfg.timeoutMinutes < c
    · rw [scanGo_records_of_timeout cfg env enrich c hto (t :: rest) acc i,
        scanGo_records_of_timeout cfg env enrich c hto _ acc i]
    · cases henv : env t with
      | error e =>
        have hkeep : (t :: rest).filter (fun t => searchOk (env t))
            = rest.filter (fun t => searchOk (env t)) := by
          simp [List.filter_cons, henv, searchOk]
        have hL : (scanGo cfg env enrich (fun _ => c) acc i (t :: rest)).1
            = (scanGo cfg env enrich (fun _ => c) acc (i + 1) rest).1 := by
          simp [scanGo, henv, hto]
        rw [hkeep, hL, scanGo_records_idx_irrel cfg env enrich c rest acc (i + 1) i]
        exact ih acc i
      | ok l =>
        have hkeep : (t :: rest).filter (fun t => searchOk (env t))
            = t :: rest.filter (fun t => searchOk (env t)) := by
          simp [List.filter_cons, henv, searchOk]
        rw [hkeep]
        by_cases hcap : cfg.maxReposPerCategory
            ≤ (addCandidates cfg enrich acc (candidatesFor cfg env t)).length
        · simp [scanGo, henv, hto, hcap]
        · have hL : (scanGo cfg env enrich (fun _ => c) acc i (t :: rest)).1
              = (scanGo cfg env enrich (fun _ => c)
                  (addCandidates cfg enrich acc (candidatesFor cfg env t)) (i + 1) rest).1 := by
            simp [scanGo, henv, hto, hcap]
          have hR : (scanGo cfg env enrich (fun _ => c) acc i
                (t :: rest.filter fun t => searchOk (env t))).1
              = (scanGo cfg env enrich (fun _ => c)
                  (addCandidates cfg enrich acc (candidatesFor cfg env t)) (i + 1)
                  (rest.filter fun t => searchOk (env t))).1 := by
            simp [scanGo, henv, hto, hcap]
          rw [hL, hR]
          exact ih _ (i + 1)

lemma addCandidates_enrich_none (cfg : ScanConfig) :
    ∀ (cands : List RawRepo) (acc : List EnrichedRepo),
      addCandidates cfg (fun _ => none) acc cands = acc := by
  intro cands
  induction cands with
  | nil => intro acc; rfl
  | cons repo rest ih =>
    intro acc
    simp only [addCandidates]
    split_ifs <;> first | rfl | exact ih acc

lemma scanGo_enrich_none (cfg : ScanConfig) (env : String → Except String (List RawRepo))
    (elapsed : Nat → ℚ) :
    ∀ (terms : List String) (acc : List EnrichedRepo) (idx : Nat),
      (scanGo cfg env (fun _ => none) elapsed acc idx terms).1 = acc := by
  intro terms
  induction terms with
  | nil => intro acc idx; rfl
  | cons t rest ih =>
    intro acc idx
    cases henv : env t with
    | error e =>
      simp only [scanGo, henv]
      split_ifs
      · rfl
      · exact ih acc (idx + 1)
    | ok l =>
      simp only [scanGo, henv, addCandidates_enrich_none]
      split_ifs
      · rfl
      · rfl
      · exact ih acc (idx + 1)

/-- Claim C8.  A term whose search fails is skipped and the loop continues
with the remaining terms: the records returned are exactly those of the
scan restricted to the terms whose search succeeds (the accumulated,
possibly partial, results — the executor itself never throws, being a
total function).  Likewise, when every enrichment fails (`enrichRepository`
returns `null` for every candidate, as on fetch errors), the scan
still returns normally, with an empty record list. -/
theorem scanCategory_skips_failed_terms :
    (∀ (cfg : ScanConfig) (env : String → Except String (List RawRepo))
        (enrich : RawRepo → Option EnrichedRepo) (c : ℚ) (terms : List String),
        scanCategory cfg env enrich (fun _ => c) terms
          = scanCategory cfg env enrich (fun _ => c) (terms.filter fun t => searchOk (env t)))
      ∧ (∀ (cfg : ScanConfig) (env : String → Except String (List RawRepo))
          (elapsed : Nat → ℚ) (terms : List String),
          scanCategory cfg env (fun _ => none) elapsed terms = []) := by
  constructor
  · intro cfg env enrich c terms
    exact scanGo_filter_errors cfg env enrich c terms [] 0
  · intro cfg env elapsed terms
    exact scanGo_enrich_none cfg env elapsed terms [] 0

lemma jsSet_mem : ∀ (m : RepoMap) (k : String) (v : EnrichedRepo) (p : String × EnrichedRepo),
    p ∈ jsSet m k v → p = (k, v) ∨ p ∈ m := by
  intro m k v
  induction m with
  | nil =>
    intro p hp
    simp only [jsSet, List.mem_singleton] at hp
    exact Or.inl hp
  | cons q rest ih =>
    intro p hp
    by_cases hq : q.1 = k
    · simp only [jsSet, if_pos hq] at hp
      rcases List.mem_cons.mp hp with h | h
      · exact Or.inl h
      · exact Or.inr (List.mem_cons_of_mem q h)
    · simp only [jsSet, if_neg hq] at hp
      rcases List.mem_cons.mp hp with h | h
      · exact Or.inr (h ▸ List.mem_cons_self q rest)
      · rcases ih p h with h' | h'
        · exact Or.inl h'
        · exact Or.inr (List.mem_cons_of_mem q h')

lemma countCategory_cons (p : String × EnrichedRepo) (m : RepoMap) (c : String) :
    countCategory (p :: m) c
      = (if p.2.category = c then 1 else 0) + countCategory m c := by
  by_cases h : p.2.category = c
  · simp [countCategory, List.filter_cons, h]
    omega
  · simp [countCategory, List.filter_cons, h]

lemma countCategory_jsSet (c : String) (v : EnrichedRepo) (hv : v.category = c) :
    ∀ (m : RepoMap) (k : String),
      (∀ p ∈ m, p.1 = k → p.2.category ≠ c) →
      countCategory (jsSet m k v) c = countCategory m c + 1 := by
  intro m
  induction m with
  | nil =>
    intro k _
    simp [jsSet, countCategory, List.filter_cons, hv]
  | cons q rest ih =>
    intro k hm
    by_cases hq : q.1 = k
    · have hqc : q.2.category ≠ c := hm q (List.mem_cons_self q rest) hq
      simp only [jsSet, if_pos hq]
      rw [countCategory_cons, countCategory_cons]
      simp [hv, hqc]
      omega
    · simp only [jsSet, if_neg hq]
      rw [countCategory_cons, countCategory_cons]
      have hrec := ih k (fun p hp hpk => hm p (List.mem_cons_of_mem q hp) hpk)
      omega

lemma countCategory_insertAll (c : String) :
    ∀ (fresh : List EnrichedRepo) (m : RepoMap),
      (fresh.map EnrichedRepo.full_name).Nodup →
      (∀ r ∈ fresh, r.category = c) →
      (∀ r ∈ fresh, ∀ p ∈ m, p.1 = r.full_name → p.2.category ≠ c) →
      countCategory (fresh.foldl (fun m' r => jsSet m' r.full_name r) m) c
        = countCategory m c + fresh.length := by
  intro fresh
  induction fresh with
  | nil => intro m _ _ _; simp
  | cons f fs ih =>
    intro m hnd hcat hdisj
    simp only [List.map_cons, List.nodup_cons] at hnd
    have hf : f.category = c := hcat f (List.mem_cons_self f fs)
    have hstep : countCategory (jsSet m f.full_name f) c = countCategory m c + 1 :=
      countCategory_jsSet c f hf m f.full_name
        (fun p hp hpk => hdisj f (List.mem_cons_self f fs) p hp hpk)
    have hdisj' : ∀ r ∈ fs, ∀ p ∈ jsSet m f.full_name f,
        p.1 = r.full_name → p.2.category ≠ c := by
      intro r hrm p hp hpk
      rcases jsSet_mem m f.full_name f p hp with h | h
      · have : f.full_name = r.full_name := by rw [← hpk, h]
        exact absurd (this ▸ List.mem_map_of_mem EnrichedRepo.full_name hrm) hnd.1
      · exact hdisj r (List.mem_cons_of_mem f hrm) p h hpk
    simp only [List.foldl_cons]
    rw [ih (jsSet m f.full_name f) hnd.2 (fun r hrm => hcat r (List.mem_cons_of_mem f hrm))
      hdisj', hstep]
    simp only [List.length_cons]
    omega

lemma countCategory_cleaned (old : RepoMap) (c : String) :
    countCategory (old.filter fun p => !(p.2.category == c)) c = 0 := by
  induction old with
  | nil => simp [countCategory]
  | cons q rest ih =>
    by_cases h : q.2.category = c
    · simpa [List.filter_cons, h] using ih
    · simp only [List.filter_cons]
      have hb : (!(q.2.category == c)) = true := by simp [h]
      rw [if_pos hb, countCategory_cons]
      simp [h, ih]

lemma mem_foldl_jsSet :
    ∀ (fresh : List EnrichedRepo) (m : RepoMap) (p : String × EnrichedRepo),
      p ∈ fresh.foldl (fun m' r => jsSet m' r.full_name r) m →
      p ∈ m ∨ ∃ r ∈ fresh, p = (r.full_name, r) := by
  intro fresh
  induction fresh with
  | nil => intro m p hp; exact Or.inl hp
  | cons f fs ih =>
    intro m p hp
    simp only [List.foldl_cons] at hp
    rcases ih (jsSet m f.full_name f) p hp with h | h
    · rcases jsSet_mem m f.full_name f p h with h' | h'
      · exact Or.inr ⟨f, List.mem_cons_self f fs, h'⟩
      · exact Or.inl h'
    · rcases h with ⟨r, hrm, hpr⟩
      exact Or.inr ⟨r, List.mem_cons_of_mem f hrm, hpr⟩

/-- Claim C4.  After the merge step for category `c`, the number of records
with category `c` equals exactly the number of fresh records (which are
deduplicated by `full_name` and all carry category `c`): every stale
category-`c` record was removed first, and every surviving category-`c`
record is one of the fresh records. -/
theorem merge_category_count (old : RepoMap) (c : String) (fresh : List EnrichedRepo)
    (hnd : (fresh.map EnrichedRepo.full_name).Nodup)
    (hcat : ∀ r ∈ fresh, r.category = c) :
    countCategory (mergeCategory old c fresh) c = fresh.length
      ∧ ∀ p ∈ mergeCategory old c fresh, p.2.category = c → p.2 ∈ fresh := by
  have hclean : ∀ p ∈ (old.filter fun p => !(p.2.category == c)), p.2.category ≠ c := by
    intro p hp
    have := (List.mem_filter.mp hp).2
    simpa using this
  constructor
  · unfold mergeCategory
    rw [countCategory_insertAll c fresh _ hnd hcat
      (fun r _ p hp _ => hclean p hp), countCategory_cleaned old c]
    omega
  · intro p hp hpc
    unfold mergeCategory at hp
    rcases mem_foldl_jsSet fresh _ p hp with h | h
    · exact absurd hpc (hclean p h)
    · rcases h with ⟨r, hrm, hpr⟩
      rw [hpr]
      exact hrm

/-- Claim C4 (witness).  Merging two fresh `c` records into a map holding two
stale `c` records and one `d` record leaves exactly two `c` records. -/
theorem merge_category_count_witness :
    countCategory (mergeCategory oldMapC4 "c" freshC4) "c" = freshC4.length :=
  (merge_category_count oldMapC4 "c" freshC4 (by decide) (by decide)).1

lemma lookupMap_cons (q : String × EnrichedRepo) (m : RepoMap) (k : String) :
    lookupMap (q :: m) k = if q.1 = k then some q.2 else lookupMap m k := by
  by_cases h : q.1 = k
  · simp [lookupMap, List.find?, beq_iff_eq, h]
  · have hb : (q.1 == k) = false := by simp [h]
    simp [lookupMap, List.find?, hb, h]

lemma lookupMap_jsSet_self : ∀ (m : RepoMap) (k : String) (v : EnrichedRepo),
    lookupMap (jsSet m k v) k = some v := by
  intro m
  induction m with
  | nil => intro k v; simp [jsSet, lookupMap_cons]
  | cons q rest ih =>
    intro k v
    by_cases hq : q.1 = k
    · simp [jsSet, hq, lookupMap_cons]
    · simp [jsSet, hq, lookupMap_cons, ih]

lemma lookupMap_jsSet_ne : ∀ (m : RepoMap) (k' : String) (v : EnrichedRepo) (k : String),
    k' ≠ k → lookupMap (jsSet m k' v) k = lookupMap m k := by
  intro m
  induction m with
  | nil =>
    intro k' v k hne
    simp [jsSet, lookupMap_cons, hne, lookupMap]
  | cons q rest ih =>
    intro k' v k hne
    by_cases hq : q.1 = k'
    · have hqk : ¬ q.1 = k := by rw [hq]; exact hne
      simp [jsSet, hq, lookupMap_cons, hne, hqk]
    · simp [jsSet, hq, lookupMap_cons, ih k' v k hne]

lemma lookupMap_insertAll_ne :
    ∀ (fs : List EnrichedRepo) (m : RepoMap) (k : String),
      (∀ x ∈ fs, x.full_name ≠ k) →
      lookupMap (fs.foldl (fun mm x => jsSet mm x.full_name x) m) k = lookupMap m k := by
  intro fs
  induction fs with
  | nil => intro m k _; rfl
  | cons g gs ih =>
    intro m k hne
    simp only [List.foldl_cons]
    rw [ih (jsSet m g.full_name g) k (fun x hx => hne x (List.mem_cons_of_mem g hx)),
      lookupMap_jsSet_ne m g.full_name g k (hne g (List.mem_cons_self g gs))]

lemma lookupMap_insertAll_of_mem :
    ∀ (fresh : List EnrichedRepo) (m : RepoMap) (r : EnrichedRepo),
      (fresh.map EnrichedRepo.full_name).Nodup → r ∈ fresh →
      lookupMap (fresh.foldl (fun m' x => jsSet m' x.full_name x) m) r.full_name = some r := by
  intro fresh
  induction fresh with
  | nil => intro m r _ hr; cases hr
  | cons f fs ih =>
    intro m r hnd hr
    simp only [List.map_cons, List.nodup_cons] at hnd
    simp only [List.foldl_cons]
    rcases List.mem_cons.mp hr with h | h
    · subst h
      have hne : ∀ x ∈ fs, x.full_name ≠ r.full_name := by
        intro x hx hxx
        exact hnd.1 (hxx ▸ List.mem_map_of_mem EnrichedRepo.full_name hx)
      rw [lookupMap_insertAll_ne fs (jsSet m r.full_name r) r.full_name hne,
        lookupMap_jsSet_self m r.full_name r]
    · exact ih (jsSet m f.full_name f) r hnd.2 h

lemma keys_jsSet : ∀ (m : RepoMap) (k : String) (v : EnrichedRepo),
    (jsSet m k v).map Prod.fst
      = if k ∈ m.map Prod.fst then m.map Prod.fst else m.map Prod.fst ++ [k] := by
  intro m
  induction m with
  | nil => intro k v; simp [jsSet]
  | cons q rest ih =>
    intro k v
    by_cases hq : q.1 = k
    · simp [jsSet, hq]
    · by_cases hk : k ∈ rest.map Prod.fst
      · have hmem : k ∈ q.1 :: rest.map Prod.fst := List.mem_cons_of_mem q.1 hk
        simp only [jsSet, if_neg hq, List.map_cons]
        rw [ih, if_pos hk, if_pos hmem]
      · have hmem : ¬ k ∈ q.1 :: rest.map Prod.fst := by
          rw [List.mem_cons]
          rintro (h | h)
          · exact hq h.symm
          · exact hk h
        simp only [jsSet, if_neg hq, List.map_cons]
        rw [ih, if_neg hk, if_neg hmem, List.cons_append]

lemma keysNodup_jsSet (m : RepoMap) (k : String) (v : EnrichedRepo)
    (h : (m.map Prod.fst).Nodup) : ((jsSet m k v).map Prod.fst).Nodup := by
  rw [keys_jsSet]
  split_ifs with hk
  · exact h
  · refine List.Nodup.append h (List.nodup_singleton k) ?_
    intro a ha hb
    rw [List.mem_singleton.mp hb] at ha
    exact hk ha

lemma keysNodup_insertAll :
    ∀ (fs : List EnrichedRepo) (m : RepoMap),
      (m.map Prod.fst).Nodup →
      ((fs.foldl (fun mm x => jsSet mm x.full_name x) m).map Prod.fst).Nodup := by
  intro fs
  induction fs with
  | nil => intro m h; exact h
  | cons f fs' ih =>
    intro m h
    simp only [List.foldl_cons]
    exact ih (jsSet m f.full_name f) (keysNodup_jsSet m f.full_name f h)

lemma keyNames_insertAll :
    ∀ (fs : List EnrichedRepo) (m : RepoMap),
      (∀ p ∈ m, p.1 = p.2.full_name) →
      ∀ p ∈ fs.foldl (fun mm x => jsSet mm x.full_name x) m, p.1 = p.2.full_name := by
  intro fs
  induction fs with
  | nil => intro m hm p hp; exact hm p hp
  | cons f fs' ih =>
    intro m hm p hp
    simp only [List.foldl_cons] at hp
    refine ih (jsSet m f.full_name f) ?_ p hp
    intro q hq
    rcases jsSet_mem m f.full_name f q hq with h | h
    · rw [h]
    · exact hm q h

lemma exists_of_lookupMap {m : RepoMap} {k : String} {v : EnrichedRepo}
    (h : lookupMap m k = some v) : ∃ e ∈ m, e.1 = k ∧ e.2 = v := by
  unfold lookupMap at h
  cases hf : m.find? (fun p => p.1 == k) with
  | none => rw [hf] at h; cases h
  | some e =>
    rw [hf] at h
    have he2 : e.2 = v := by simpa using h
    have he1 : e.1 = k := by simpa using List.find?_some hf
    exact ⟨e, List.mem_of_find?_eq_some hf, he1, he2⟩

/-- Claim C10.  After merging category `c`, every stable identifier keys at
most one record; a fresh category-`c` record whose `full_name` equals the
key of an existing record of a *different* category replaces that record:
the key now yields the fresh record, and the displaced record is gone from
the map entirely — so merging category `c` can remove records whose
category is not `c`.  (The hypotheses are the JS-object invariants of the
persisted map — unique keys, each record stored under its own `full_name` —
and the executor's guarantees about the fresh list.) -/
theorem merge_replaces_record_of_other_category
    (old : RepoMap) (c : String) (fresh : List EnrichedRepo) (k : String)
    (r rOld : EnrichedRepo)
    (hkeys : (old.map Prod.fst).Nodup)
    (hkv : ∀ p ∈ old, p.1 = p.2.full_name)
    (hnd : (fresh.map EnrichedRepo.full_name).Nodup)
    (hcat : ∀ x ∈ fresh, x.category = c)
    (hr : r ∈ fresh) (hk : r.full_name = k)
    (hold : (k, rOld) ∈ old) (hD : rOld.category ≠ c) :
    ((mergeCategory old c fresh).map Prod.fst).Nodup
      ∧ lookupMap (mergeCategory old c fresh) k = some r
      ∧ ∀ p ∈ mergeCategory old c fresh, p.2 ≠ rOld := by
  have hclkeys : (((old.filter fun p => !(p.2.category == c)).map Prod.fst)).Nodup :=
    ((List.filter_sublist old).map Prod.fst).nodup hkeys
  have h1 : ((mergeCategory old c fresh).map Prod.fst).Nodup :=
    keysNodup_insertAll fresh _ hclkeys
  have h2 : lookupMap (mergeCategory old c fresh) k = some r := by
    subst hk
    exact lookupMap_insertAll_of_mem fresh _ r hnd hr
  refine ⟨h1, h2, ?_⟩
  intro p hp hpr
  have hkn : p.1 = p.2.full_name :=
    keyNames_insertAll fresh _ (fun q hq => hkv q (List.mem_filter.mp hq).1) p hp
  have hko : k = rOld.full_name := hkv (k, rOld) hold
  have hp1 : p.1 = k := by rw [hkn, hpr, ← hko]
  obtain ⟨e, hem, he1, he2⟩ := exists_of_lookupMap h2
  have hpe : p = e := List.inj_on_of_nodup_map h1 hp hem (by rw [hp1, he1])
  have hre : rOld = r := by rw [← hpr, hpe, he2]
  exact hD (by rw [hre]; exact hcat r hr)

/-- Claim C10 (witness).  Merging the fresh category-`c` record `x` into a
map whose key `x` holds a category-`d` record yields the fresh record at
key `x`. -/
theorem merge_replaces_record_witness :
    lookupMap (mergeCategory oldMapC10 "c" freshC10) "x"
      = some (EnrichedRepo.mk "x" "c") :=
  (merge_replaces_record_of_other_category oldMapC10 "c" freshC10 "x"
    (EnrichedRepo.mk "x" "c") (EnrichedRepo.mk "x" "d")
    (by decide) (by decide) (by decide) (by decide) (by decide) (by decide)
    (by decide) (by decide)).2.1
